import Mathlib

/-!
Verification of the klo keyboard-layout optimizer (Rust sources under src/).

The development is a shallow embedding of the relevant parts of the program:

* machine floats (`f64`) are embedded as exact rationals `ℚ`;
* Rust `HashMap` contents are embedded as association lists built in
  insertion order (a canonical representative of the map's content); where a
  map's *iteration order* is observable (Rust leaves `HashMap` iteration
  order unspecified and seeds the hasher randomly per process), the embedding
  takes the enumeration order as an explicit parameter constrained to be a
  permutation of the map content;
* panicking operations (out-of-bounds indexing, `unwrap`) are embedded as
  `Option`/`Except` with `none`/`error` marking the panic.
-/

/-- Pos mirrors `type Pos = (usize, usize, usize)` from src/layout.rs:
row index, key index (left to right), layer index. -/
abbrev Pos : Type := ℕ × ℕ × ℕ

/-- Blueprint mirrors `type Blueprint = Vec<Row>` with `Row = Vec<Key>`,
`Key = Vec<Layer>`, `Layer = String` from src/layout.rs. -/
abbrev Blueprint : Type := List (List (List String))

/-- COST_LAYER_ADDITION from `Layout::single_key_position_cost` and
`Layout::is_position_cost_lower` (src/layout.rs): per-layer cost addition. -/
def COST_LAYER_ADDITION : List ℕ := [0, 20, 9, 16, 29, 25]

/-- COST_PER_KEY from `Layout::single_key_position_cost` (src/layout.rs):
the (row, key)-indexed base position costs.  Row lengths are 14, 14, 14, 13, 8. -/
def COST_PER_KEY : List (List ℕ) :=
  [ [80,    70, 60, 50, 50, 60,    60, 50, 50, 50, 50, 60, 70, 80],
    [24,    16, 10,  5, 12, 17,    20, 13,  5,  9, 11, 20, 36,  0],
    [9,      5,  3,  3,  3,  6,     6,  3,  3,  3,  5,  9, 30,  6],
    [20, 16, 19, 24, 20, 9,   30,  10, 8, 22, 22, 17,       19],
    [0, 0, 0,                3           , 7, 0, 0, 0] ]

/-- RIGHT_HAND_LOWEST_INDEXES from `Layout::from_blueprint` (src/layout.rs):
per row, the lowest key index typed by the right hand. -/
def RIGHT_HAND_LOWEST_INDEXES : List ℕ := [7, 6, 6, 7, 3]

/-- Embedding of `Layout::single_key_position_cost` (src/layout.rs):
`COST_PER_KEY[pos.0][pos.1] + COST_LAYER_ADDITION[pos.2]`.  The Rust
indexing panics out of bounds, embedded as `none`. -/
def single_key_position_cost (pos : Pos) : Option ℕ :=
  match COST_PER_KEY.get? pos.1 with
  | none => none
  | some row =>
    match row.get? pos.2.1 with
    | none => none
    | some base =>
      match COST_LAYER_ADDITION.get? pos.2.2 with
      | none => none
      | some add => some (base + add)

lemma single_key_position_cost_isSome (pos : Pos) :
    (single_key_position_cost pos).isSome ↔
      pos.1 < COST_PER_KEY.length ∧
      pos.2.1 < (COST_PER_KEY.getD pos.1 []).length ∧
      pos.2.2 < COST_LAYER_ADDITION.length := by
  unfold single_key_position_cost
  rcases hr : COST_PER_KEY.get? pos.1 with _ | row
  · have := List.get?_eq_none.1 hr
    simp only [hr, Option.isSome_none, Bool.false_eq_true, false_iff]
    omega
  · have hlt : pos.1 < COST_PER_KEY.length := (List.get?_eq_some.1 hr).1
    have hgetD : COST_PER_KEY.getD pos.1 [] = row := by
      rw [List.getD_eq_get?, hr]; rfl
    rw [hgetD]
    simp only [hr]
    rcases hb : row.get? pos.2.1 with _ | base
    · have := List.get?_eq_none.1 hb
      simp only [hb, Option.isSome_none, Bool.false_eq_true, false_iff]
      omega
    · have hblt : pos.2.1 < row.length := (List.get?_eq_some.1 hb).1
      simp only [hb]
      rcases ha : COST_LAYER_ADDITION.get? pos.2.2 with _ | add
      · have := List.get?_eq_none.1 ha
        simp only [ha, Option.isSome_none, Bool.false_eq_true, false_iff]
        omega
      · have halt : pos.2.2 < COST_LAYER_ADDITION.length := (List.get?_eq_some.1 ha).1
        simp only [ha, Option.isSome_some, true_iff]
        exact ⟨hlt, hblt, halt⟩

/-- C9: `Layout::single_key_position_cost` is defined (does not panic) exactly
for positions with row below 5, layer below 6 and key index below that row's
cost-table length (14, 14, 14, 13, 8 for rows 0 through 4); within these
bounds it always returns a value. -/
theorem single_key_position_cost_domain (r s l : ℕ) :
    (single_key_position_cost (r, s, l)).isSome ↔
      r < 5 ∧ l < 6 ∧ s < ([14, 14, 14, 13, 8].getD r 0) := by
  have h := single_key_position_cost_isSome (r, s, l)
  have hlen : (COST_PER_KEY.getD r []).length = [14, 14, 14, 13, 8].getD r 0 := by
    rcases r with _ | _ | _ | _ | _ | n
    · rfl
    · rfl
    · rfl
    · rfl
    · rfl
    · rw [List.getD_eq_default, List.getD_eq_default]
      · rfl
      · simp
      · simp [COST_PER_KEY]
  have h1 : COST_PER_KEY.length = 5 := rfl
  have h2 : COST_LAYER_ADDITION.length = 6 := rfl
  rw [h1, h2, hlen] at h
  rw [h]
  tauto

/-- Embedding of `KloOptions::post_parse_checks` (src/klo_options.rs), acting
on the `anneal_step` field: when `anneal * anneal_step > steps`, the step
count is replaced by `max(1, (0.5 * steps / (1 + anneal)) as u128)`; the
float division is embedded exactly over `ℚ` and the `as u128` cast as the
floor. -/
def post_parse_anneal_step (anneal anneal_step steps : ℕ) : ℕ :=
  if steps < anneal * anneal_step then
    max 1 (Nat.floor ((steps : ℚ) / 2 / (1 + (anneal : ℚ))))
  else anneal_step

/-- C7 counterexample: with `anneal = 6`, `anneal_step = 1000`,
`steps = 10000`, the configured product (6000) exceeds half the step budget
(5000) but not the full budget, so `post_parse_checks` leaves it unchanged
and the invariant `anneal * anneal_step ≤ steps / 2` fails. -/
theorem post_parse_checks_allows_over_half :
    post_parse_anneal_step 6 1000 10000 = 1000 ∧
    10000 < 2 * (6 * post_parse_anneal_step 6 1000 10000) := by
  have h : post_parse_anneal_step 6 1000 10000 = 1000 := by
    unfold post_parse_anneal_step
    norm_num
  exact ⟨h, by rw [h]; norm_num⟩

/-- C7 amended: the rescaling fires only when `anneal * anneal_step` exceeds
the full step budget; in that case the new `anneal_step` is at least 1, and
provided `2 * (anneal + 1) ≤ steps` (so the computed quotient is not floored
up to 1) the resulting product is bounded by half the step budget. -/
theorem post_parse_checks_bounds_product (anneal anneal_step steps : ℕ)
    (h1 : steps < anneal * anneal_step) (h2 : 2 * (anneal + 1) ≤ steps) :
    1 ≤ post_parse_anneal_step anneal anneal_step steps ∧
    2 * (anneal * post_parse_anneal_step anneal anneal_step steps) ≤ steps := by
  have hfl : Nat.floor ((steps : ℚ) / 2 / (1 + (anneal : ℚ))) =
      steps / (2 * (anneal + 1)) := by
    rw [div_div]
    have hc : (2 : ℚ) * (1 + (anneal : ℚ)) = ((2 * (anneal + 1) : ℕ) : ℚ) := by
      push_cast; ring
    rw [hc]
    exact @Nat.floor_div_nat ℚ _ _ steps (2 * (anneal + 1))
  have hq1 : 1 ≤ steps / (2 * (anneal + 1)) :=
    (Nat.one_le_div_iff (by omega)).2 h2
  have hval : post_parse_anneal_step anneal anneal_step steps =
      steps / (2 * (anneal + 1)) := by
    unfold post_parse_anneal_step
    rw [if_pos h1, hfl]
    omega
  constructor
  · rw [hval]
    exact hq1
  rw [hval]
  have hmul : (steps / (2 * (anneal + 1))) * (2 * (anneal + 1)) ≤ steps :=
    Nat.div_mul_le_self steps (2 * (anneal + 1))
  calc 2 * (anneal * (steps / (2 * (anneal + 1))))
      = (steps / (2 * (anneal + 1))) * (2 * anneal) := by ring
    _ ≤ (steps / (2 * (anneal + 1))) * (2 * (anneal + 1)) :=
        Nat.mul_le_mul_left _ (by omega)
    _ ≤ steps := hmul

/-- C7 witness: at `anneal = 5`, `anneal_step = 3000`, `steps = 10000` the
rescaling fires and the rescaled product is within half the budget. -/
theorem post_parse_checks_bounds_product_witness :
    10000 < 5 * 3000 ∧ 2 * (5 + 1) ≤ 10000 ∧
    (1 ≤ post_parse_anneal_step 5 3000 10000 ∧
     2 * (5 * post_parse_anneal_step 5 3000 10000) ≤ 10000) :=
  ⟨by norm_num, by norm_num,
   post_parse_checks_bounds_product 5 3000 10000 (by norm_num) (by norm_num)⟩

/-- RawNGrams mirrors `struct RawNGrams` (src/ngrams.rs); counts are `f64`
in Rust, embedded as exact rationals. -/
structure RawNGrams where
  weight : ℚ
  letters : List (String × ℚ)
  bigrams : List (String × ℚ)
  trigrams : List (String × ℚ)

/-- NormalizedNGrams mirrors `struct NormalizedNGrams` (src/ngrams.rs). -/
structure NormalizedNGrams where
  weight : ℚ
  letters : List (String × ℚ)
  bigrams : List (String × ℚ)
  trigrams : List (String × ℚ)

/-- NGrams mirrors `pub struct NGrams` (src/ngrams.rs). -/
structure NGrams where
  letters : List (String × ℚ)
  bigrams : List (String × ℚ)
  trigrams : List (String × ℚ)

/-- Embedding of `NGrams::fold_ngrams` (src/ngrams.rs). -/
def fold_ngrams (sum : ℚ) (ngram : String × ℚ) : ℚ := sum + ngram.2

/-- Embedding of `NGrams::normalize_ngrams` (src/ngrams.rs): every count is
divided by the source's total over all three categories.  The function is
total, exactly as in the source (there is no error path); division by a zero
total is `ℚ`'s total division (`x / 0 = 0`), where `f64` would produce
NaN/inf. -/
def normalize_ngrams (ngrams : RawNGrams) : NormalizedNGrams :=
  let sum_letters : ℚ := ngrams.letters.foldl fold_ngrams 0
  let sum_bigrams : ℚ := ngrams.bigrams.foldl fold_ngrams 0
  let sum_trigrams : ℚ := ngrams.trigrams.foldl fold_ngrams 0
  let total : ℚ := sum_letters + sum_bigrams + sum_trigrams
  { weight := ngrams.weight
    letters := ngrams.letters.map (fun p => (p.1, p.2 / total))
    bigrams := ngrams.bigrams.map (fun p => (p.1, p.2 / total))
    trigrams := ngrams.trigrams.map (fun p => (p.1, p.2 / total)) }

/-- Embedding of `*map.entry(key).or_insert(0.0) += value` on a Rust
`HashMap` (src/ngrams.rs), with the map content represented as an
association list in insertion order. -/
def upsertAdd (m : List (String × ℚ)) (k : String) (v : ℚ) : List (String × ℚ) :=
  match m with
  | [] => [(k, v)]
  | (k', v') :: rest => if k' = k then (k', v' + v) :: rest else (k', v') :: upsertAdd rest k v

/-- One source's contribution inside `NGrams::collect_normalized_ngrams`
(src/ngrams.rs): each normalized count is multiplied by the source weight
and accumulated into the three maps. -/
def collect_source (acc : NGrams) (ngram : NormalizedNGrams) : NGrams :=
  { letters := ngram.letters.foldl (fun m p => upsertAdd m p.1 (p.2 * ngram.weight)) acc.letters
    bigrams := ngram.bigrams.foldl (fun m p => upsertAdd m p.1 (p.2 * ngram.weight)) acc.bigrams
    trigrams := ngram.trigrams.foldl (fun m p => upsertAdd m p.1 (p.2 * ngram.weight)) acc.trigrams }

/-- Embedding of `NGrams::collect_normalized_ngrams` (src/ngrams.rs), up to
the final `HashMap::into_iter` enumeration: the three association lists are
the map contents in insertion order.  The Rust function then drains each
`HashMap` into a `Vec` in the map's (unspecified, per-process-seeded)
iteration order, which is modeled as an arbitrary permutation of these
lists where it matters. -/
def collect_normalized_ngrams (normalized : List NormalizedNGrams) : NGrams :=
  normalized.foldl collect_source ⟨[], [], []⟩

/-- Sum of the stored scores of a table. -/
def sumSnd (l : List (String × ℚ)) : ℚ := (l.map Prod.snd).sum

lemma foldl_fold_ngrams (l : List (String × ℚ)) : ∀ a : ℚ, l.foldl fold_ngrams a = a + sumSnd l := by
  induction l with
  | nil => intro a; simp [sumSnd]
  | cons p t ih =>
    intro a
    rw [List.foldl_cons, ih]
    simp only [sumSnd, List.map_cons, List.sum_cons, fold_ngrams]
    ring

lemma sumSnd_upsertAdd (m : List (String × ℚ)) (k : String) (v : ℚ) :
    sumSnd (upsertAdd m k v) = sumSnd m + v := by
  induction m with
  | nil => simp [upsertAdd, sumSnd]
  | cons p t ih =>
    obtain ⟨k', v'⟩ := p
    by_cases hk : k' = k
    · simp only [upsertAdd, if_pos hk, sumSnd, List.map_cons, List.sum_cons]
      ring
    · simp only [upsertAdd, if_neg hk, sumSnd, List.map_cons, List.sum_cons]
      simp only [sumSnd] at ih
      rw [ih]
      ring

lemma sumSnd_fold_upsert (entries : List (String × ℚ)) (w : ℚ) :
    ∀ m, sumSnd (entries.foldl (fun acc p => upsertAdd acc p.1 (p.2 * w)) m) =
      sumSnd m + w * sumSnd entries := by
  induction entries with
  | nil => intro m; simp [sumSnd]
  | cons p t ih =>
    intro m
    rw [List.foldl_cons, ih, sumSnd_upsertAdd]
    simp only [sumSnd, List.map_cons, List.sum_cons]
    ring

lemma sumSnd_map_div (l : List (String × ℚ)) (t : ℚ) :
    sumSnd (l.map (fun p => (p.1, p.2 / t))) = sumSnd l / t := by
  induction l with
  | nil => simp [sumSnd]
  | cons p r ih =>
    simp only [sumSnd, List.map_cons, List.sum_cons] at ih ⊢
    rw [ih, add_div]

/-- Total score over the three tables of a built corpus, computed with the
source's own fold. -/
def ngrams_total (g : NGrams) : ℚ :=
  g.letters.foldl fold_ngrams 0 + g.bigrams.foldl fold_ngrams 0 + g.trigrams.foldl fold_ngrams 0

/-- A raw source's total count over the three categories, computed with the
source's own fold (this is the `total` used by `normalize_ngrams`). -/
def raw_total (raw : RawNGrams) : ℚ :=
  raw.letters.foldl fold_ngrams 0 + raw.bigrams.foldl fold_ngrams 0 + raw.trigrams.foldl fold_ngrams 0

/-- C2: for a single ingested source with declared weight `w` and positive
total count, the sum of all scores in the corpus built from that source
alone equals `w` (exactly, over `ℚ`; hence within the claimed 1e-9). -/
theorem collect_single_source_sum_eq_weight (raw : RawNGrams) (h : 0 < raw_total raw) :
    |ngrams_total (collect_normalized_ngrams [normalize_ngrams raw]) - raw.weight| ≤
      1 / 1000000000 := by
  have htot : raw_total raw ≠ 0 := ne_of_gt h
  have hzero : ∀ l : List (String × ℚ), l.foldl fold_ngrams 0 = sumSnd l := by
    intro l
    rw [foldl_fold_ngrams]
    ring
  have htot' : raw_total raw = sumSnd raw.letters + sumSnd raw.bigrams + sumSnd raw.trigrams := by
    unfold raw_total
    rw [hzero, hzero, hzero]
  have heq : ngrams_total (collect_normalized_ngrams [normalize_ngrams raw]) = raw.weight := by
    show ngrams_total (collect_source ⟨[], [], []⟩ (normalize_ngrams raw)) = raw.weight
    unfold ngrams_total collect_source
    simp only
    rw [hzero, hzero, hzero, sumSnd_fold_upsert, sumSnd_fold_upsert, sumSnd_fold_upsert]
    show sumSnd [] + (normalize_ngrams raw).weight * sumSnd (normalize_ngrams raw).letters +
        (sumSnd [] + (normalize_ngrams raw).weight * sumSnd (normalize_ngrams raw).bigrams) +
        (sumSnd [] + (normalize_ngrams raw).weight * sumSnd (normalize_ngrams raw).trigrams) = raw.weight
    show sumSnd [] + raw.weight * sumSnd (raw.letters.map (fun p => (p.1, p.2 / raw_total raw))) +
        (sumSnd [] + raw.weight * sumSnd (raw.bigrams.map (fun p => (p.1, p.2 / raw_total raw)))) +
        (sumSnd [] + raw.weight * sumSnd (raw.trigrams.map (fun p => (p.1, p.2 / raw_total raw)))) = raw.weight
    rw [sumSnd_map_div, sumSnd_map_div, sumSnd_map_div]
    have hsum : sumSnd [] = 0 := rfl
    rw [hsum]
    field_simp
    rw [htot']
    ring
  rw [heq]
  simp

/-- C2 witness: the spec's own concrete scenario — a source of weight 1 with
letters e:100 and t:50 — has positive total and sums to its weight. -/
theorem collect_single_source_sum_eq_weight_witness :
    0 < raw_total ⟨1, [("e", 100), ("t", 50)], [], []⟩ ∧
    |ngrams_total (collect_normalized_ngrams
        [normalize_ngrams ⟨1, [("e", 100), ("t", 50)], [], []⟩]) - (1 : ℚ)| ≤
      1 / 1000000000 := by
  have h : 0 < raw_total ⟨1, [("e", 100), ("t", 50)], [], []⟩ := by
    norm_num [raw_total, fold_ngrams]
  exact ⟨h, collect_single_source_sum_eq_weight _ h⟩

/-- C4: `NGrams::normalize_ngrams` has no error path at all — there is no
`EmptyCorpusError` anywhere in the code.  On a source whose total count is
zero it performs the division regardless and returns a `NormalizedNGrams`
(in `f64` the score becomes `0.0 / 0.0 = NaN`; in this exact embedding the
total division yields `0 / 0 = 0`).  The theorem evaluates the embedded code
at such a zero-total source and shows it returns a value instead of
failing. -/
theorem normalize_ngrams_zero_total_no_error :
    normalize_ngrams ⟨1, [("a", 0)], [], []⟩ =
      ⟨1, [("a", (0 : ℚ) / 0)], [], []⟩ := by
  unfold normalize_ngrams
  norm_num [fold_ngrams]

/-- Embedding of Rust `str::split` with a single-character separator, over
the character list of the string: pieces between separators, empty pieces
included (`"".split(" ")` yields one empty piece). -/
def split_on_char (sep : Char) : List Char → List (List Char)
  | [] => [[]]
  | c :: rest =>
    if c = sep then [] :: split_on_char sep rest
    else
      match split_on_char sep rest with
      | [] => [[c]]
      | p :: ps => (c :: p) :: ps

/-- The whitespace-filtered fields of an ngrams config line, mirroring
`line.split(" ").filter(|part| part != "")` in
`NGrams::work_ngrams_config_line` (src/ngrams.rs). -/
def config_parts (line : List Char) : List (List Char) :=
  (split_on_char ' ' line).filter (fun p => p ≠ [])

/-- A parsed ngrams config line: declared weight plus source kind/locator. -/
inductive ConfigSource where
  | text : ℚ → List Char → ConfigSource
  | pregenerated : ℚ → List Char → List Char → List Char → ConfigSource

/-- Embedding of `NGrams::work_ngrams_config_line` (src/ngrams.rs),
parameterized by the `f64` parser.  `Except.error ()` marks a panic (the
unchecked `parts[0]`/`parts[1]`/`parts[2]` indexing and the
`parse::<f64>().unwrap()`), `Except.ok none` the skip-with-warning of an
unsupported source kind, `Except.ok (some _)` a parsed source. -/
def work_ngrams_config_line (parse_f64 : List Char → Option ℚ) (line : List Char) :
    Except Unit (Option ConfigSource) :=
  match config_parts line with
  | p0 :: p1 :: p2 :: _ =>
    match parse_f64 p0 with
    | none => Except.error ()
    | some w =>
      if p1 = String.toList "text" then Except.ok (some (ConfigSource.text w p2))
      else if p1 = String.toList "pregenerated" then
        match split_on_char ';' p2 with
        | q0 :: q1 :: q2 :: _ => Except.ok (some (ConfigSource.pregenerated w q0 q1 q2))
        | _ => Except.error ()
      else Except.ok none
  | _ => Except.error ()

/-- C10: `NGrams::work_ngrams_config_line` panics — it neither returns an
error value nor skips the line — on any line with fewer than three
whitespace-separated fields (a blank line included) or whose first field the
float parser rejects. -/
theorem work_ngrams_config_line_panics (parse_f64 : List Char → Option ℚ) (line : List Char)
    (h : (config_parts line).length < 3 ∨ parse_f64 ((config_parts line).headD []) = none) :
    work_ngrams_config_line parse_f64 line = Except.error () := by
  unfold work_ngrams_config_line
  rcases hp : config_parts line with _ | ⟨p0, _ | ⟨p1, _ | ⟨p2, rest⟩⟩⟩
  · rfl
  · rfl
  · rfl
  · rw [hp] at h
    rcases h with h | h
    · simp at h
      omega
    · simp only [List.headD_cons] at h
      simp [h]

/-- C10 witness: a blank line has zero fields and makes the function panic,
whatever the float parser is. -/
theorem work_ngrams_config_line_panics_witness :
    ((config_parts []).length < 3 ∨
      (fun _ => some (1 : ℚ)) ((config_parts []).headD []) = none) ∧
    work_ngrams_config_line (fun _ => some (1 : ℚ)) [] = Except.error () :=
  ⟨Or.inl (by decide), work_ngrams_config_line_panics _ _ (Or.inl (by decide))⟩

lemma list_get?_set_self {α : Type} (l : List α) (i : ℕ) (a : α) (h : i < l.length) :
    (l.set i a).get? i = some a := by
  induction l generalizing i with
  | nil => simp at h
  | cons x t ih =>
    cases i with
    | zero => rfl
    | succ n =>
      exact ih n (by simpa using h)

lemma list_get?_set_ne {α : Type} (l : List α) (i j : ℕ) (a : α) (h : i ≠ j) :
    (l.set i a).get? j = l.get? j := by
  induction l generalizing i j with
  | nil => simp
  | cons x t ih =>
    cases i with
    | zero =>
      cases j with
      | zero => exact absurd rfl h
      | succ m => rfl
    | succ n =>
      cases j with
      | zero => rfl
      | succ m =>
        exact ih n m (by omega)

/-- Embedding of `Blueprint_Helpers::get_key_pos` (src/layout.rs): scans every
row and key in order, comparing the key's first layer (default "not_set")
with the needle; the last match wins, and (0, 0) is returned when nothing
matches. -/
def get_key_pos (bp : Blueprint) (needle : String) : ℕ × ℕ :=
  bp.enum.foldl
    (fun acc rr =>
      rr.2.enum.foldl
        (fun acc2 kk => if kk.2.headD "not_set" = needle then (rr.1, kk.1) else acc2)
        acc)
    (0, 0)

/-- Embedding of `Blueprint_Helpers::set_key` (src/layout.rs):
`self[row][key][layer] = new_key`, with `none` for the out-of-bounds panic. -/
def set_key (bp : Blueprint) (r k l : ℕ) (new_key : String) : Option Blueprint :=
  match bp.get? r with
  | none => none
  | some row =>
    match row.get? k with
    | none => none
    | some key =>
      if l < key.length then some (bp.set r (row.set k (key.set l new_key)))
      else none

/-- Embedding of `Blueprint_Helpers::replace_key` (src/layout.rs): looks up
`old_key`'s (row, key) with `get_key_pos` and overwrites layer 0 of that cell
with `new_key`.  Nothing is written at `new_key`'s own cell. -/
def replace_key (bp : Blueprint) (new_key old_key : String) : Option Blueprint :=
  set_key bp (get_key_pos bp old_key).1 (get_key_pos bp old_key).2 0 new_key

/-- The content of a Blueprint cell at (row, key, layer), if present. -/
def cell_at (bp : Blueprint) (r k l : ℕ) : Option String :=
  match bp.get? r with
  | none => none
  | some row =>
    match row.get? k with
    | none => none
    | some key => key.get? l

/-- C5 counterexample: on the Blueprint `[[["a"], ["b"]]]` the key-replacement
helper does not exchange the two characters' cells (either argument order
duplicates one character and loses the other), and applying it twice with the
same pair does not restore the original Blueprint. -/
theorem replace_key_not_involution :
    replace_key [[["a"], ["b"]]] "b" "a" = some [[["b"], ["b"]]] ∧
    (replace_key [[["a"], ["b"]]] "b" "a").bind (fun bp2 => replace_key bp2 "b" "a") =
      some [[["b"], ["b"]]] ∧
    replace_key [[["a"], ["b"]]] "a" "b" = some [[["a"], ["a"]]] ∧
    (replace_key [[["a"], ["b"]]] "a" "b").bind (fun bp2 => replace_key bp2 "a" "b") =
      some [[["a"], ["a"]]] ∧
    ([[["b"], ["b"]]] : Blueprint) ≠ [[["a"], ["b"]]] ∧
    ([[["a"], ["a"]]] : Blueprint) ≠ [[["a"], ["b"]]] := by
  refine ⟨rfl, rfl, rfl, rfl, by decide, by decide⟩

/-- C5 amended: `replace_key(new_key, old_key)` returns the input Blueprint
with layer 0 of the single cell found by `get_key_pos` for `old_key` (its
last layer-0 occurrence, or cell (0,0) when absent) overwritten by
`new_key`; every other cell is unchanged.  It is an overwrite, not an
exchange: `old_key` is not written anywhere, so the operation is generally
not an involution. -/
theorem replace_key_overwrites_single_cell (bp : Blueprint) (new_key old_key : String)
    (bp2 : Blueprint) (h : replace_key bp new_key old_key = some bp2) :
    cell_at bp2 (get_key_pos bp old_key).1 (get_key_pos bp old_key).2 0 = some new_key ∧
    ∀ r k l, ¬(r = (get_key_pos bp old_key).1 ∧ k = (get_key_pos bp old_key).2 ∧ l = 0) →
      cell_at bp2 r k l = cell_at bp r k l := by
  unfold replace_key set_key at h
  rcases hr : bp.get? (get_key_pos bp old_key).1 with _ | row
  · simp only [hr] at h
    exact absurd h (by simp)
  simp only [hr] at h
  rcases hk : row.get? (get_key_pos bp old_key).2 with _ | key
  · simp only [hk] at h
    exact absurd h (by simp)
  simp only [hk] at h
  by_cases hl : 0 < key.length
  case neg =>
    rw [if_neg hl] at h
    exact absurd h (by simp)
  rw [if_pos hl] at h
  have hbp2 : bp2 = bp.set (get_key_pos bp old_key).1
      (row.set (get_key_pos bp old_key).2 (key.set 0 new_key)) := (Option.some.inj h).symm
  have hrlt : (get_key_pos bp old_key).1 < bp.length := (List.get?_eq_some.1 hr).1
  have hklt : (get_key_pos bp old_key).2 < row.length := (List.get?_eq_some.1 hk).1
  constructor
  · simp only [cell_at, hbp2, list_get?_set_self _ _ _ hrlt, list_get?_set_self _ _ _ hklt,
      list_get?_set_self _ _ _ hl]
  · intro r k l hnot
    by_cases hr2 : r = (get_key_pos bp old_key).1
    · subst hr2
      by_cases hk2 : k = (get_key_pos bp old_key).2
      · subst hk2
        have hl2 : l ≠ 0 := fun hh => hnot ⟨rfl, rfl, hh⟩
        simp only [cell_at, hbp2, list_get?_set_self _ _ _ hrlt,
          list_get?_set_self _ _ _ hklt, hr, hk,
          list_get?_set_ne key 0 l new_key (Ne.symm hl2)]
      · simp only [cell_at, hbp2, list_get?_set_self _ _ _ hrlt, hr,
          list_get?_set_ne row (get_key_pos bp old_key).2 k (key.set 0 new_key)
            (fun hh => hk2 hh.symm)]
    · simp only [cell_at, hbp2,
        list_get?_set_ne bp (get_key_pos bp old_key).1 r
          (row.set (get_key_pos bp old_key).2 (key.set 0 new_key))
          (fun hh => hr2 hh.symm)]

/-- C5 witness: the amended overwrite property evaluated on the concrete
Blueprint `[[["a"], ["b"]]]`. -/
theorem replace_key_overwrites_single_cell_witness :
    replace_key [[["a"], ["b"]]] "b" "a" = some [[["b"], ["b"]]] ∧
    (cell_at [[["b"], ["b"]]] (get_key_pos [[["a"], ["b"]]] "a").1
        (get_key_pos [[["a"], ["b"]]] "a").2 0 = some "b" ∧
     ∀ r k l, ¬(r = (get_key_pos [[["a"], ["b"]]] "a").1 ∧
         k = (get_key_pos [[["a"], ["b"]]] "a").2 ∧ l = 0) →
       cell_at [[["b"], ["b"]]] r k l = cell_at [[["a"], ["b"]]] r k l) :=
  ⟨rfl, replace_key_overwrites_single_cell [[["a"], ["b"]]] "b" "a" [[["b"], ["b"]]] rfl⟩

/-- Embedding of the loop in `Layout::get_randomized_variant` (src/layout.rs):
for each index the call is
`blueprint.replace_key(old_alphabet[idx], new_alphabet[idx])`, so the
shuffled character's found cell is overwritten with the original alphabet
character; a panic in `set_key` propagates. -/
def grv_loop : Blueprint → List (String × String) → Option Blueprint
  | bp, [] => some bp
  | bp, (orig, shuf) :: rest => (replace_key bp orig shuf).bind (fun b => grv_loop b rest)

/-- Embedding of `Layout::get_randomized_variant` (src/layout.rs).  The
`thread_rng` shuffle is the explicit `shuffled` parameter; the function's
`steps` parameter is accepted and — exactly as in the source — never used:
the loop always performs one `replace_key` per alphabet character. -/
def get_randomized_variant (bp : Blueprint) (alphabet shuffled : List String)
    (steps : ℕ) : Option Blueprint :=
  grv_loop bp (alphabet.zip shuffled)

/-- Modelled from the spec: `apply_swap(a, b)` returns a new Blueprint with
the two characters' top-layer (layer-0) cells exchanged, leaving every other
cell untouched. -/
def spec_apply_swap (bp : Blueprint) (a b : String) : Blueprint :=
  bp.map (fun row => row.map (fun key =>
    match key with
    | [] => []
    | c :: rest => (if c = a then b else if c = b then a else c) :: rest))

/-- C6: evaluating the prerandomization at a concrete input.  On the
Blueprint `[[["a"], ["b"], ["c"], ["d"]]]` with alphabet a,b,c,d and the
drawn shuffle b,c,d,a, `get_randomized_variant` (called with `steps = 1`,
standing for a configured prerandomize count of 1) performs four
`replace_key` operations — one per alphabet character, regardless of the
count — and produces `[[["a"], ["d"], ["b"], ["c"]]]`, which differs from
the input in three cells and therefore is not the result of any single
character-pair swap in the spec's sense. -/
theorem get_randomized_variant_not_single_swap :
    get_randomized_variant [[["a"], ["b"], ["c"], ["d"]]] ["a", "b", "c", "d"]
      ["b", "c", "d", "a"] 1 = some [[["a"], ["d"], ["b"], ["c"]]] ∧
    ∀ x y : String,
      spec_apply_swap [[["a"], ["b"], ["c"], ["d"]]] x y ≠ [[["a"], ["d"], ["b"], ["c"]]] := by
  constructor
  · rfl
  · intro x y hcontra
    have e2 : (if "b" = x then y else if "b" = y then x else "b") = "d" :=
      Option.some.inj (congrArg (fun bp => cell_at bp 0 1 0) hcontra)
    have e4 : (if "d" = x then y else if "d" = y then x else "d") = "c" :=
      Option.some.inj (congrArg (fun bp => cell_at bp 0 3 0) hcontra)
    by_cases hbx : "b" = x
    · subst hbx
      rw [if_pos rfl] at e2
      subst e2
      rw [if_neg (show ¬("d" : String) = "b" by decide), if_pos rfl] at e4
      exact absurd e4 (by decide)
    · by_cases hby : "b" = y
      · subst hby
        rw [if_neg hbx, if_pos rfl] at e2
        subst e2
        rw [if_pos rfl] at e4
        exact absurd e4 (by decide)
      · rw [if_neg hbx, if_neg hby] at e2
        exact absurd e2 (by decide)

/-- The per-character state of `NGrams::parse_text_ngrams` (src/ngrams.rs):
the three count maps plus the previous (`bigram_char`) and before-previous
(`trigram_char`) characters of the sliding window. -/
structure TextState where
  letters : List (String × ℚ)
  bigrams : List (String × ℚ)
  trigrams : List (String × ℚ)
  bigram_char : Option String
  trigram_char : Option String

/-- One step of the sliding window in `NGrams::parse_text_ngrams`
(src/ngrams.rs): ASCII uppercase is first folded to `⇧` (the
`UPPER_CASE_REGEX` replacement), `⇧` is excluded from the letter counts, the
bigram key is current ++ previous and the trigram key is
current ++ previous ++ before-previous. -/
def text_step (st : TextState) (c0 : Char) : TextState :=
  let c : Char := if ('A' ≤ c0 ∧ c0 ≤ 'Z') then '⇧' else c0
  let letters := if c = '⇧' then st.letters else upsertAdd st.letters c.toString 1
  match st.bigram_char with
  | none =>
    { st with letters := letters, bigram_char := some c.toString }
  | some bc =>
    { letters := letters
      bigrams := upsertAdd st.bigrams (c.toString ++ bc) 1
      trigrams :=
        match st.trigram_char with
        | some tc => upsertAdd st.trigrams (c.toString ++ bc ++ tc) 1
        | none => st.trigrams
      bigram_char := some c.toString
      trigram_char := some bc }

/-- The bigram count map accumulated by `NGrams::parse_text_ngrams` over a
character stream (association list in insertion order; the final `Vec` is
this map read in the `HashMap`'s unspecified iteration order and truncated
to `len - 2`). -/
def parse_text_bigrams (cs : List Char) : List (String × ℚ) :=
  (cs.foldl text_step ⟨[], [], [], none, none⟩).bigrams

/-- C8: for the text "abcd" the sliding window accumulates three distinct
bigram entries (ab, bc, cd — stored reversed as "ba", "cb", "dc"), of which
only the last pair cd straddles the end of input; the claim would retain the
entries for ab and bc.  The code instead truncates the bigram `Vec` — the
map read in an arbitrary enumeration order — to `len - 2 = 1` entries, so
whatever order the `HashMap` yields, at most one entry survives and the
claimed retention of both non-final pairs fails. -/
theorem parse_text_bigrams_truncation (order : List (String × ℚ))
    (h : order.Perm (parse_text_bigrams ['a', 'b', 'c', 'd'])) :
    (order.take ((parse_text_bigrams ['a', 'b', 'c', 'd']).length - 2)).length = 1 ∧
    ¬(("ba", (1 : ℚ)) ∈ order.take ((parse_text_bigrams ['a', 'b', 'c', 'd']).length - 2) ∧
      ("cb", (1 : ℚ)) ∈ order.take ((parse_text_bigrams ['a', 'b', 'c', 'd']).length - 2)) := by
  have hM : parse_text_bigrams ['a', 'b', 'c', 'd'] = [("ba", 1), ("cb", 1), ("dc", 1)] := rfl
  have hn : (parse_text_bigrams ['a', 'b', 'c', 'd']).length - 2 = 1 := by rw [hM]; rfl
  have hlen3 : order.length = 3 := by rw [h.length_eq, hM]; rfl
  rw [hn]
  rcases order with _ | ⟨x, rest⟩
  · simp at hlen3
  · simp only [List.take_succ_cons, List.take_zero]
    refine ⟨rfl, ?_⟩
    rintro ⟨h1, h2⟩
    simp only [List.mem_singleton] at h1 h2
    rw [← h1] at h2
    exact absurd (congrArg Prod.fst h2) (by decide)

/-- C8 witness: the insertion-order enumeration of the bigram map is one
admissible `HashMap` iteration order. -/
theorem parse_text_bigrams_truncation_witness :
    (parse_text_bigrams ['a', 'b', 'c', 'd']).Perm (parse_text_bigrams ['a', 'b', 'c', 'd']) ∧
    (((parse_text_bigrams ['a', 'b', 'c', 'd']).take
        ((parse_text_bigrams ['a', 'b', 'c', 'd']).length - 2)).length = 1 ∧
     ¬(("ba", (1 : ℚ)) ∈ (parse_text_bigrams ['a', 'b', 'c', 'd']).take
          ((parse_text_bigrams ['a', 'b', 'c', 'd']).length - 2) ∧
       ("cb", (1 : ℚ)) ∈ (parse_text_bigrams ['a', 'b', 'c', 'd']).take
          ((parse_text_bigrams ['a', 'b', 'c', 'd']).length - 2))) :=
  ⟨List.Perm.refl _, parse_text_bigrams_truncation _ (List.Perm.refl _)⟩

/-- FINGER_POS_LIST from `Layout::from_blueprint` (src/layout.rs): the
layer-0 positions accessed by each of the ten fingers. -/
def FINGER_POS_LIST : List (String × List Pos) :=
  [ ("Klein_L", [(0, 0, 0), (0, 1, 0), (0, 2, 0), (1, 0, 0), (1, 1, 0), (2, 0, 0), (2, 1, 0),
      (3, 0, 0), (3, 1, 0), (3, 2, 0), (4, 0, 0), (4, 1, 0)]),
    ("Ring_L", [(0, 3, 0), (1, 2, 0), (2, 2, 0), (3, 3, 0)]),
    ("Mittel_L", [(0, 4, 0), (1, 3, 0), (2, 3, 0), (3, 4, 0)]),
    ("Zeige_L", [(0, 5, 0), (0, 6, 0), (1, 4, 0), (2, 4, 0), (3, 5, 0), (1, 5, 0), (2, 5, 0),
      (3, 6, 0)]),
    ("Daumen_L", [(4, 2, 0), (4, 3, 0)]),
    ("Daumen_R", [(4, 3, 0), (4, 4, 0)]),
    ("Zeige_R", [(0, 7, 0), (0, 8, 0), (1, 6, 0), (2, 6, 0), (3, 7, 0), (1, 7, 0), (2, 7, 0),
      (3, 8, 0)]),
    ("Mittel_R", [(0, 9, 0), (1, 8, 0), (2, 8, 0), (3, 9, 0)]),
    ("Ring_R", [(0, 10, 0), (1, 9, 0), (2, 9, 0), (3, 10, 0)]),
    ("Klein_R", [(0, 11, 0), (0, 12, 0), (0, 13, 0), (1, 10, 0), (2, 10, 0), (3, 11, 0),
      (1, 11, 0), (2, 11, 0), (1, 12, 0), (2, 12, 0), (1, 13, 0), (2, 13, 0), (3, 12, 0),
      (4, 5, 0), (4, 6, 0), (4, 7, 0)]) ]

/-- The POS_TO_FINGER lookup of `Layout::from_blueprint`: the map built by
inserting every (position, finger) pair in list order, so a position claimed
by two fingers gets the later one; positions not in the map yield "" in
`char_finger_dict`. -/
def finger_of_pos (p : Pos) : String :=
  (FINGER_POS_LIST.foldl (fun acc fp => if p ∈ fp.2 then some fp.1 else acc) none).getD ""

/-- Embedding of `Layout::is_position_cost_lower` (src/layout.rs): the
incumbent's cost adds twice its layer addition on top of
`single_key_position_cost` (which already contains it once), the candidate's
adds it once; panics from the indexing are `none`. -/
def is_position_cost_lower (old_pos new_pos : Pos) : Option Bool :=
  (single_key_position_cost old_pos).bind (fun oc =>
    (COST_LAYER_ADDITION.get? old_pos.2.2).bind (fun oa =>
      (single_key_position_cost new_pos).bind (fun nc =>
        (COST_LAYER_ADDITION.get? new_pos.2.2).map (fun na =>
          decide (nc + na < oc + 2 * oa)))))

/-- The four derived caches of `Layout` (src/layout.rs), as insertion-order
association lists. -/
structure LayoutCaches where
  char_finger : List (String × String)
  char_pos : List (String × Pos)
  pos_is_left : List (Pos × Bool)
  pos_char : List (Pos × String)

/-- Association-list lookup mirroring `HashMap` key lookup. -/
def lookupA {α β : Type} [DecidableEq α] (k : α) : List (α × β) → Option β
  | [] => none
  | (k2, v) :: rest => if k2 = k then some v else lookupA k rest

/-- Association-list insert mirroring `HashMap::insert` (overwrite). -/
def insertA {α β : Type} [DecidableEq α] (m : List (α × β)) (k : α) (v : β) : List (α × β) :=
  match m with
  | [] => [(k, v)]
  | (k2, v2) :: rest => if k2 = k then (k2, v) :: rest else (k2, v2) :: insertA rest k v

lemma lookupA_insertA_self {α β : Type} [DecidableEq α] (m : List (α × β)) (k : α) (v : β) :
    lookupA k (insertA m k v) = some v := by
  induction m with
  | nil => simp [insertA, lookupA]
  | cons p t ih =>
    obtain ⟨k2, v2⟩ := p
    by_cases hk : k2 = k
    · simp [insertA, lookupA, hk]
    · simp [insertA, lookupA, hk, ih]

lemma lookupA_insertA_ne {α β : Type} [DecidableEq α] (m : List (α × β)) (k k2 : α) (v : β)
    (h : k2 ≠ k) : lookupA k2 (insertA m k v) = lookupA k2 m := by
  induction m with
  | nil =>
    simp only [insertA, lookupA]
    rw [if_neg (fun hh => h hh.symm)]
  | cons p t ih =>
    obtain ⟨k3, v3⟩ := p
    by_cases hk : k3 = k
    · simp only [insertA, if_pos hk, lookupA]
      rw [if_neg (by rw [hk]; exact fun hh => h hh.symm), if_neg (by rw [hk]; exact fun hh => h hh.symm)]
    · simp only [insertA, if_neg hk, lookupA]
      by_cases hk2 : k3 = k2
      · rw [if_pos hk2, if_pos hk2]
      · rw [if_neg hk2, if_neg hk2, ih]

/-- The row-major, key-major, layer-major cell enumeration of a Blueprint,
exactly the iteration order of `Layout::from_blueprint`. -/
def cells_of (bp : Blueprint) : List (Pos × String) :=
  bp.enum.flatMap (fun rr =>
    rr.2.enum.flatMap (fun kk =>
      kk.2.enum.map (fun ll => (((rr.1, kk.1, ll.1) : Pos), ll.2))))

/-- The fill decision of `Layout::from_blueprint` for one cell: fill when
the character is not yet in `char_finger_dict`, otherwise fill when
`is_position_cost_lower(char_pos_dict[char], pos)`. -/
def fill_flag (c : LayoutCaches) (ch : String) (pos : Pos) : Option Bool :=
  if (lookupA ch c.char_finger).isSome then
    match lookupA ch c.char_pos with
    | some old => is_position_cost_lower old pos
    | none => none
  else some true

/-- The cache updates of `Layout::from_blueprint` for one cell. -/
def apply_cell (c : LayoutCaches) (ch : String) (pos : Pos) (fill : Bool) (rh : ℕ) :
    LayoutCaches :=
  { char_finger :=
      if fill then insertA c.char_finger ch (finger_of_pos (pos.1, pos.2.1, 0))
      else c.char_finger
    char_pos := if fill then insertA c.char_pos ch pos else c.char_pos
    pos_is_left := insertA c.pos_is_left pos (decide (pos.2.1 < rh))
    pos_char := insertA c.pos_char pos ch }

/-- One iteration of the `Layout::from_blueprint` loop on one cell;
`RIGHT_HAND_LOWEST_INDEXES[row_idx]` and the cost comparison can panic. -/
def cell_step (c : LayoutCaches) (pc : Pos × String) : Option LayoutCaches :=
  match fill_flag c pc.2 pc.1, RIGHT_HAND_LOWEST_INDEXES.get? pc.1.1 with
  | some fill, some rh => some (apply_cell c pc.2 pc.1 fill rh)
  | _, _ => none

/-- Embedding of the cache construction of `Layout::from_blueprint`
(src/layout.rs): a single pass over all cells.  A blueprint with more than
five rows overruns `RIGHT_HAND_LOWEST_INDEXES` (the row-indexed hand-split
table), embedded as `none` like every other panic. -/
def from_blueprint (bp : Blueprint) : Option LayoutCaches :=
  if bp.length ≤ 5 then (cells_of bp).foldlM cell_step ⟨[], [], [], []⟩ else none

/-- The total version of the comparison done by `is_position_cost_lower`:
keep the candidate exactly when its `single_key_position_cost` plus layer
addition is strictly below the incumbent's `single_key_position_cost` plus
twice its layer addition. -/
def pick_pos (old_pos new_pos : Pos) : Pos :=
  if (single_key_position_cost new_pos).getD 0 + (COST_LAYER_ADDITION.get? new_pos.2.2).getD 0 <
      (single_key_position_cost old_pos).getD 0 +
        2 * (COST_LAYER_ADDITION.get? old_pos.2.2).getD 0
  then new_pos else old_pos

/-- One step of the per-character selection fold. -/
def fold_pick (cur : Option Pos) (p : Pos) : Option Pos :=
  match cur with
  | none => some p
  | some q => some (pick_pos q p)

/-- The occurrence list of a character, in iteration order. -/
def occurrences (bp : Blueprint) (ch : String) : List Pos :=
  (cells_of bp).filterMap (fun pc => if pc.2 = ch then some pc.1 else none)

/-- The cell `Layout::from_blueprint` ends up caching for a character: the
left fold of the asymmetric replacement rule over its occurrences. -/
def chosen_pos (bp : Blueprint) (ch : String) : Option Pos :=
  (occurrences bp ch).foldl fold_pick none

lemma is_position_cost_lower_spec (op np : Pos) (b : Bool)
    (h : is_position_cost_lower op np = some b) :
    b = decide
      ((single_key_position_cost np).getD 0 + (COST_LAYER_ADDITION.get? np.2.2).getD 0 <
        (single_key_position_cost op).getD 0 +
          2 * (COST_LAYER_ADDITION.get? op.2.2).getD 0) := by
  unfold is_position_cost_lower at h
  rcases h1 : single_key_position_cost op with _ | oc
  · rw [h1] at h
    exact absurd h (by simp)
  rw [h1, Option.some_bind] at h
  rcases h2 : COST_LAYER_ADDITION.get? op.2.2 with _ | oa
  · rw [h2] at h
    exact absurd h (by simp)
  rw [h2, Option.some_bind] at h
  rcases h3 : single_key_position_cost np with _ | nc
  · rw [h3] at h
    exact absurd h (by simp)
  rw [h3, Option.some_bind] at h
  rcases h4 : COST_LAYER_ADDITION.get? np.2.2 with _ | na
  · rw [h4] at h
    exact absurd h (by simp)
  rw [h4, Option.map_some'] at h
  rw [← Option.some.inj h]
  rfl

lemma foldlM_cell_step_spec (cells : List (Pos × String)) :
    ∀ (c0 c : LayoutCaches),
      (∀ ch, lookupA ch c0.char_finger =
        (lookupA ch c0.char_pos).map (fun p => finger_of_pos (p.1, p.2.1, 0))) →
      cells.foldlM cell_step c0 = some c →
      (∀ ch, lookupA ch c.char_finger =
        (lookupA ch c.char_pos).map (fun p => finger_of_pos (p.1, p.2.1, 0))) ∧
      (∀ ch, lookupA ch c.char_pos =
        (cells.filterMap (fun pc => if pc.2 = ch then some pc.1 else none)).foldl
          fold_pick (lookupA ch c0.char_pos)) := by
  induction cells with
  | nil =>
    intro c0 c hinv h
    rw [List.foldlM_nil] at h
    obtain rfl : c0 = c := Option.some.inj h
    exact ⟨hinv, fun ch => by simp⟩
  | cons pc rest ih =>
    intro c0 c hinv h
    rw [List.foldlM_cons] at h
    rcases hstep : cell_step c0 pc with _ | c1
    · rw [hstep] at h
      exact absurd h (by simp)
    rw [hstep] at h
    have h2 : rest.foldlM cell_step c1 = some c := by simpa using h
    unfold cell_step at hstep
    rcases hf : fill_flag c0 pc.2 pc.1 with _ | fill
    · simp only [hf] at hstep
      exact absurd hstep (by simp)
    rcases hrh : RIGHT_HAND_LOWEST_INDEXES.get? pc.1.1 with _ | rh
    · simp only [hf, hrh] at hstep
      exact absurd hstep (by simp)
    simp only [hf, hrh] at hstep
    have hc1 : c1 = apply_cell c0 pc.2 pc.1 fill rh := (Option.some.inj hstep).symm
    have hinv1 : ∀ ch, lookupA ch c1.char_finger =
        (lookupA ch c1.char_pos).map (fun p => finger_of_pos (p.1, p.2.1, 0)) := by
      intro ch
      rw [hc1]
      simp only [apply_cell]
      cases fill with
      | false => simpa using hinv ch
      | true =>
        simp only [if_true]
        by_cases hch : pc.2 = ch
        · subst hch
          rw [lookupA_insertA_self, lookupA_insertA_self]
          rfl
        · rw [lookupA_insertA_ne _ _ _ _ (fun hh => hch hh.symm),
            lookupA_insertA_ne _ _ _ _ (fun hh => hch hh.symm)]
          exact hinv ch
    have hstepchar : ∀ ch, lookupA ch c1.char_pos =
        (if pc.2 = ch then fold_pick (lookupA ch c0.char_pos) pc.1
         else lookupA ch c0.char_pos) := by
      intro ch
      by_cases hch : pc.2 = ch
      · rw [if_pos hch]
        subst hch
        rcases hold : lookupA pc.2 c0.char_pos with _ | old
        · have hffval : fill_flag c0 pc.2 pc.1 = some true := by
            unfold fill_flag
            rw [hinv pc.2, hold]
            rfl
          have hfill : fill = true := by
            rw [hffval] at hf
            exact (Option.some.inj hf).symm
          rw [hc1]
          simp only [apply_cell, hfill, if_true]
          rw [lookupA_insertA_self]
          rfl
        · have hipcl : is_position_cost_lower old pc.1 = some fill := by
            unfold fill_flag at hf
            rw [hinv pc.2, hold] at hf
            simpa using hf
          have hfill := is_position_cost_lower_spec old pc.1 fill hipcl
          rw [hc1]
          simp only [apply_cell]
          by_cases hcond : (single_key_position_cost pc.1).getD 0 +
              (COST_LAYER_ADDITION.get? pc.1.2.2).getD 0 <
              (single_key_position_cost old).getD 0 +
                2 * (COST_LAYER_ADDITION.get? old.2.2).getD 0
          · have hft : fill = true := by
              rw [hfill]
              exact decide_eq_true hcond
            rw [hft]
            simp only [if_true]
            rw [lookupA_insertA_self]
            show some pc.1 = some (pick_pos old pc.1)
            unfold pick_pos
            rw [if_pos hcond]
          · have hff : fill = false := by
              rw [hfill]
              exact decide_eq_false hcond
            rw [hff]
            simp only [Bool.false_eq_true, if_false]
            rw [hold]
            show some old = some (pick_pos old pc.1)
            unfold pick_pos
            rw [if_neg hcond]
      · rw [if_neg hch, hc1]
        simp only [apply_cell]
        cases fill with
        | false => simp
        | true =>
          simp only [if_true]
          rw [lookupA_insertA_ne _ _ _ _ (fun hh => hch hh.symm)]
    obtain ⟨ihinv, ihfold⟩ := ih c1 c hinv1 h2
    refine ⟨ihinv, ?_⟩
    intro ch
    rw [ihfold ch]
    by_cases hch : pc.2 = ch
    · rw [@List.filterMap_cons_some (Pos × String) Pos
        (fun pc2 => if pc2.2 = ch then some pc2.1 else none) pc rest pc.1 (by simp [hch]),
        List.foldl_cons, hstepchar ch, if_pos hch]
    · rw [@List.filterMap_cons_none (Pos × String) Pos
        (fun pc2 => if pc2.2 = ch then some pc2.1 else none) pc rest (by simp [hch]),
        hstepchar ch, if_neg hch]

/-- C1 amended: `Layout::from_blueprint` maps every character, in both the
char-to-position and the char-to-finger cache, to the result of folding its
cells in row-major, key-major, layer-major order with the asymmetric
replacement rule of `is_position_cost_lower`: a later cell displaces the
cached one exactly when its `single_key_position_cost` plus its layer
addition is strictly below the cached cell's `single_key_position_cost`
plus twice its layer addition; otherwise the earlier cell is kept.  (In
particular, on an exact tie of position-plus-layer cost at a nonzero layer
the later cell wins, not the first-seen one.) -/
theorem from_blueprint_char_selection (bp : Blueprint) (c : LayoutCaches)
    (h : from_blueprint bp = some c) (ch : String) :
    lookupA ch c.char_pos = chosen_pos bp ch ∧
    lookupA ch c.char_finger =
      (chosen_pos bp ch).map (fun p => finger_of_pos (p.1, p.2.1, 0)) := by
  unfold from_blueprint at h
  by_cases hlen : bp.length ≤ 5
  case neg =>
    rw [if_neg hlen] at h
    exact absurd h (by simp)
  rw [if_pos hlen] at h
  obtain ⟨hinv, hfold⟩ :=
    foldlM_cell_step_spec (cells_of bp) ⟨[], [], [], []⟩ c (fun ch2 => rfl) h
  constructor
  · rw [hfold ch]
    rfl
  · rw [hinv ch, hfold ch]
    rfl

/-- A one-row, 14-key Blueprint in which "x" occupies exactly the two cells
(0, 0, 1) and (0, 13, 1), both of position-plus-layer cost 80 + 20 = 100. -/
def tie_blueprint : Blueprint :=
  [[["k0", "x"], [""], [""], [""], [""], [""], [""], [""], [""], [""], [""], [""], [""],
    ["k13", "x"]]]

/-- C1 counterexample: in `tie_blueprint` the character "x" occurs at
(0, 0, 1) first and (0, 13, 1) second, and the two cells have exactly equal
position-plus-layer cost (an exact tie), so the claim keeps the first-seen
cell (0, 0, 1); the built char-to-position cache instead holds the later
cell (0, 13, 1), because the incumbent is handicapped by a doubled extra
layer addition in `is_position_cost_lower`. -/
theorem from_blueprint_tie_not_first_seen :
    occurrences tie_blueprint "x" = [(0, 0, 1), (0, 13, 1)] ∧
    single_key_position_cost (0, 0, 1) = some 100 ∧
    single_key_position_cost (0, 13, 1) = some 100 ∧
    (from_blueprint tie_blueprint).map (fun c => lookupA "x" c.char_pos) =
      some (some (0, 13, 1)) :=
  ⟨rfl, rfl, rfl, rfl⟩

/-- C1 witness: the amended selection rule evaluated on the two-key
Blueprint `[[["a"], ["b"]]]`. -/
theorem from_blueprint_char_selection_witness :
    from_blueprint [[["a"], ["b"]]] =
      some ⟨[("a", "Klein_L"), ("b", "Klein_L")],
            [("a", (0, 0, 0)), ("b", (0, 1, 0))],
            [((0, 0, 0), true), ((0, 1, 0), true)],
            [((0, 0, 0), "a"), ((0, 1, 0), "b")]⟩ ∧
    (lookupA "a"
        (⟨[("a", "Klein_L"), ("b", "Klein_L")],
          [("a", (0, 0, 0)), ("b", (0, 1, 0))],
          [((0, 0, 0), true), ((0, 1, 0), true)],
          [((0, 0, 0), "a"), ((0, 1, 0), "b")]⟩ : LayoutCaches).char_pos =
        chosen_pos [[["a"], ["b"]]] "a" ∧
     lookupA "a"
        (⟨[("a", "Klein_L"), ("b", "Klein_L")],
          [("a", (0, 0, 0)), ("b", (0, 1, 0))],
          [((0, 0, 0), true), ((0, 1, 0), true)],
          [((0, 0, 0), "a"), ((0, 1, 0), "b")]⟩ : LayoutCaches).char_finger =
        (chosen_pos [[["a"], ["b"]]] "a").map (fun p => finger_of_pos (p.1, p.2.1, 0))) :=
  ⟨rfl, from_blueprint_char_selection [[["a"], ["b"]]] _ rfl "a"⟩
